import Mathlib

/-
Verification of the sharded buffer cache in kernel/bio.c.

The C code is embedded shallowly and sequentially: a cache state records,
for every buffer index, the metadata fields of its struct buf, and for
every bucket the intrusive list of buffer indices threaded through the
prev and next pointers (front of the list = head.next = most recently
used end; back of the list = head.prev = least recently used end).
Machine integers (uint) are Nat with explicit reduction modulo 2^32 where
the C arithmetic can wrap.  Each operation is modelled as it executes to
completion by a single caller: an operation that would suspend forever on
acquiresleep is disabled (it yields blocked or none), and a panic yields
panicked or none, since a panic halts the kernel.  The sleep lock of each
buffer is a single flag: locked means held by some caller, and
holdingsleep is modelled by that flag.  The data payload and the virtio
disk are external collaborators: disk transfers are modelled only by
counting them.
-/

set_option maxHeartbeats 1000000
set_option maxRecDepth 100000

namespace BioCache

/-- NBUCKETS, the number of hash buckets (line 25 of bio.c). -/
def NBUCKETS : Nat := 53

/-- The modulus of C uint arithmetic. -/
def U32 : Nat := 4294967296

/-- getIndex, the hash function (lines 61-64): blockno % NBUCKETS.  The
result is below 53 so the conversion to unsigned char never truncates. -/
def getIndex (blockno : Nat) : Nat := blockno % NBUCKETS

/-- uint increment: wraps at 2^32. -/
def incr32 (n : Nat) : Nat := (n + 1) % U32

/-- uint decrement: 0 wraps to 2^32 - 1. -/
def decr32 (n : Nat) : Nat := (n + (U32 - 1)) % U32

/-- The metadata of one struct buf (buf.h): device, block number, the
valid flag, the reference count, and whether the sleep lock is held.
The prev and next links are modelled by the bucket lists of BCache; the
data payload and the disk-ownership flag belong to the DiskIO
collaborator and carry no claim, so they are not modelled. -/
structure Buf where
  dev : Nat
  blockno : Nat
  valid : Bool
  refcnt : Nat
  locked : Bool
deriving Repr, DecidableEq

/-- A struct buf as C zero-initializes the global bcache.buf array. -/
def initBuf : Buf :=
  { dev := 0, blockno := 0, valid := false, refcnt := 0, locked := false }

/-- The whole bcache: the metadata of every buffer (indexed by position in
bcache.buf) and, for every bucket, the list of buffer indices on its
doubly linked list, front = head.next = most recently used. -/
structure BCache where
  bufs : Nat → Buf
  lists : Nat → List Nat

/-- Pointwise update of the metadata of buffer b. -/
def updBuf (s : BCache) (b : Nat) (f : Buf → Buf) : BCache :=
  { s with bufs := fun x => if x = b then f (s.bufs x) else s.bufs x }

/-- binit (lines 39-58): every bucket list starts empty (each head is a
self cycle), then each of the n buffers is pushed at the front of bucket
0, so after the loop bucket 0 reads n-1, ..., 1, 0 from the MRU end. -/
def binit (n : Nat) : BCache :=
  (List.range n).foldl
    (fun s b =>
      { s with lists := fun i => if i = 0 then b :: s.lists 0 else s.lists i })
    { bufs := fun _ => initBuf, lists := fun _ => [] }

/-- The hit scan of bget (lines 78-87): walk the bucket list of shard idx
from the MRU end and return the first buffer whose dev and blockno match
the request. -/
def hitFind (s : BCache) (idx d bn : Nat) : Option Nat :=
  (s.lists idx).find? (fun x => decide ((s.bufs x).dev = d ∧ (s.bufs x).blockno = bn))

/-- The recycling scan of one probed shard (lines 95-115): walk the
bucket list of shard j from the LRU end (head.prev, backwards through
prev), i.e. the reversed list, and return the first buffer whose
reference count is 0. -/
def evictFind (s : BCache) (j : Nat) : Option Nat :=
  ((s.lists j).reverse).find? (fun x => decide ((s.bufs x).refcnt = 0))

/-- The pointer surgery of lines 103-109 and 160-165: unlink buffer c
from whatever bucket list holds it and splice it in at the MRU end of
bucket idx. -/
def moveToFront (s : BCache) (idx c : Nat) : BCache :=
  { s with
    lists := fun i =>
      if i = idx then c :: (s.lists i).erase c else (s.lists i).erase c }

/-- Lines 99-109: reassign the identity of the claimed buffer c to
(d, bn), clear its valid flag, set its reference count to 1, and relink
it from its current bucket into bucket idx. -/
def claimBuf (s : BCache) (idx c d bn : Nat) : BCache :=
  moveToFront
    (updBuf s c (fun v =>
      { dev := d, blockno := bn, valid := false, refcnt := 1, locked := v.locked }))
    idx c

/-- acquiresleep once it returns: the sleep lock of c is held. -/
def lockBuf (s : BCache) (c : Nat) : BCache :=
  updBuf s c (fun v => { v with locked := true })

/-- The refcnt++ of the hit path (line 82). -/
def bumpRef (s : BCache) (b : Nat) : BCache :=
  updBuf s b (fun v => { v with refcnt := incr32 v.refcnt })

/-- The bucket indices the while loop of lines 92-118 visits, in order:
nextIdx starts at k0 = getIndex(blockno + 1) and steps through
getIndex(nextIdx + 1) = (nextIdx + 1) % 53 until it comes back to idx,
which is never visited.  The 53 consecutive values k0, k0+1, ... cover
every residue mod 53 exactly once, so for idx < 53 the loop stops within
the first 53 steps and visits exactly the longest idx-free prefix. -/
def probeSeq (idx k0 : Nat) : List Nat :=
  ((List.range NBUCKETS).map (fun t => (k0 + t) % NBUCKETS)).takeWhile
    (fun j => decide (j ≠ idx))

/-- What bget returns: a state and a buffer index, or the caller is
suspended forever on acquiresleep (no other thread exists in a
sequential run), or the kernel Panics at line 119. -/
inductive BGetResult where
  | ok (s : BCache) (b : Nat)
  | blocked
  | panicked

/-- The while loop of lines 92-118 over the remaining probe sequence:
scan each probed shard from its LRU end; on the first buffer with
reference count 0, claim it, relink it into shard idx and acquire its
sleep lock; if no probed shard has one, the loop ends at line 119. -/
def probeLoop (s : BCache) (idx d bn : Nat) : List Nat → BGetResult
  | [] => .panicked
  | j :: rest =>
    match evictFind s j with
    | some c =>
      if (s.bufs c).locked then .blocked
      else .ok (lockBuf (claimBuf s idx c d bn) c) c
    | none => probeLoop s idx d bn rest

/-- bget (lines 69-120).  The uint parameters are reduced mod 2^32; the
hit path bumps the reference count and takes the sleep lock; the miss
path runs the probe loop, whose first index getIndex(blockno + 1) is
computed in uint arithmetic. -/
def bget (s : BCache) (dev blockno : Nat) : BGetResult :=
  let d := dev % U32
  let bn := blockno % U32
  let idx := getIndex bn
  match hitFind s idx d bn with
  | some b =>
    if (s.bufs b).locked then .blocked
    else .ok (lockBuf (bumpRef s b) b) b
  | none => probeLoop s idx d bn (probeSeq idx (getIndex ((bn + 1) % U32)))

/-- What bread returns: a state, a buffer index and the number of disk
read transfers performed, or blocked / panicked propagated from bget. -/
inductive BReadResult where
  | ok (s : BCache) (b : Nat) (reads : Nat)
  | blocked
  | panicked

/-- bread (lines 123-135): bget, then if the buffer is not valid, one
virtio_disk_rw read transfer and the valid flag is set. -/
def bread (s : BCache) (dev blockno : Nat) : BReadResult :=
  match bget s dev blockno with
  | .ok s1 b =>
    if (s1.bufs b).valid then .ok s1 b 0
    else .ok (updBuf s1 b (fun v => { v with valid := true })) b 1
  | .blocked => .blocked
  | .panicked => .panicked

/-- bwrite (lines 138-143): panic unless the sleep lock is held,
otherwise one virtio_disk_rw write transfer and no state change.
none is the panic; some gives the state and the write-transfer count. -/
def bwrite (s : BCache) (b : Nat) : Option (BCache × Nat) :=
  if (s.bufs b).locked then some (s, 1) else none

/-- brelse (lines 147-169): panic unless the sleep lock is held;
release it, decrement the reference count (uint arithmetic), and if it
reached 0 move the buffer to the MRU end of bucket getIndex(blockno). -/
def brelse (s : BCache) (b : Nat) : Option BCache :=
  if (s.bufs b).locked then
    let s1 := updBuf s b (fun v => { v with locked := false, refcnt := decr32 v.refcnt })
    some (if (s1.bufs b).refcnt = 0
          then moveToFront s1 (getIndex (s.bufs b).blockno) b
          else s1)
  else none

/-- bpin (lines 171-177): refcnt++ under the bucket lock. -/
def bpin (s : BCache) (b : Nat) : BCache := bumpRef s b

/-- bunpin (lines 179-185): refcnt-- under the bucket lock. -/
def bunpin (s : BCache) (b : Nat) : BCache :=
  updBuf s b (fun v => { v with refcnt := decr32 v.refcnt })

/-- One invocation of an interface operation, with its arguments. -/
inductive Op where
  | get (dev blockno : Nat)
  | read (dev blockno : Nat)
  | write (b : Nat)
  | release (b : Nat)
  | pin (b : Nat)
  | unpin (b : Nat)

/-- The state after one completed operation; none when the operation
panics or suspends forever. -/
def stepOp (s : BCache) : Op → Option BCache
  | .get d bn =>
    match bget s d bn with
    | .ok s1 _ => some s1
    | _ => none
  | .read d bn =>
    match bread s d bn with
    | .ok s1 _ _ => some s1
    | _ => none
  | .write b => (bwrite s b).map Prod.fst
  | .release b => brelse s b
  | .pin b => some (bpin s b)
  | .unpin b => some (bunpin s b)

/-- States reachable from binit n by completed operations. -/
inductive Reachable (n : Nat) : BCache → Prop
  | init : Reachable n (binit n)
  | step {s s1 : BCache} (op : Op) :
      Reachable n s → stepOp s op = some s1 → Reachable n s1

/-- One spinlock event of a bget run: acquire or release of the lock of
one bucket. -/
inductive LockEv where
  | acq (i : Nat)
  | rel (i : Nat)
deriving Repr, DecidableEq

/-- The bucket-lock events of the while loop (lines 92-118), with the
lock of the target bucket idx still held throughout: each probed bucket
j is locked at line 94; on a claim it is released at line 105 and the
target lock at line 111; on an empty scan it is released at line 116.
When the loop runs out, the panic at line 119 fires with the target lock
still held, so the trace simply ends. -/
def probeLoopTrace (s : BCache) (idx : Nat) : List Nat → List LockEv
  | [] => []
  | j :: rest =>
    match evictFind s j with
    | some _ => [.acq j, .rel j, .rel idx]
    | none => .acq j :: .rel j :: probeLoopTrace s idx rest

/-- The bucket-lock events of one bget run (lines 75-119): acquire the
target bucket lock; a hit releases it at line 83; a miss runs the probe
loop.  acquiresleep takes no bucket lock, so it does not appear. -/
def bgetLockTrace (s : BCache) (dev blockno : Nat) : List LockEv :=
  let d := dev % U32
  let bn := blockno % U32
  let idx := getIndex bn
  .acq idx ::
    match hitFind s idx d bn with
    | some _ => [.rel idx]
    | none => probeLoopTrace s idx (probeSeq idx (getIndex ((bn + 1) % U32)))

/-- The pairs (a, j) such that the trace acquires lock j while already
holding lock a, tracked against the list of currently held locks. -/
def heldPairsAux : List LockEv → List Nat → List (Nat × Nat)
  | [], _ => []
  | .acq j :: rest, held => held.map (fun a => (a, j)) ++ heldPairsAux rest (j :: held)
  | .rel j :: rest, held => heldPairsAux rest (held.erase j)

/-- The pairs (a, j) such that a bget run acquires bucket lock j while
already holding bucket lock a. -/
def heldPairs (tr : List LockEv) : List (Nat × Nat) := heldPairsAux tr []

/-- The largest number of bucket locks simultaneously held at any point
of the trace. -/
def maxHeldAux : List LockEv → List Nat → Nat
  | [], held => held.length
  | .acq j :: rest, held => max (held.length + 1) (maxHeldAux rest (j :: held))
  | .rel j :: rest, held => max held.length (maxHeldAux rest (held.erase j))

/-- The largest number of bucket locks a bget run holds at once. -/
def maxHeld (tr : List LockEv) : Nat := maxHeldAux tr []

/-- The (device, block) identity of buffer x. -/
def keyOf (s : BCache) (x : Nat) : Nat × Nat :=
  ((s.bufs x).dev, (s.bufs x).blockno)

/-- At most one buffer with the valid flag set per (device, block). -/
def UniqueValid (n : Nat) (s : BCache) : Prop :=
  ∀ i < n, ∀ j < n, i ≠ j → (s.bufs i).valid = true → (s.bufs j).valid = true →
    keyOf s i ≠ keyOf s j

/-- Buffer x is the first buffer carrying its own key on the bucket list
of the shard its block number hashes to. -/
def keyFirst (s : BCache) (x : Nat) : Prop :=
  (s.lists (getIndex (s.bufs x).blockno)).find?
    (fun y => decide (keyOf s y = keyOf s x)) = some x

theorem find?_congr_mem {α : Type} {p q : α → Bool} :
    ∀ {l : List α}, (∀ x ∈ l, p x = q x) → l.find? p = l.find? q := by
  intro l
  induction l with
  | nil => intro _; rfl
  | cons a t ih =>
    intro h
    have ha : p a = q a := h a (List.mem_cons_self a t)
    cases hp : p a with
    | true =>
      rw [List.find?_cons_of_pos t hp, List.find?_cons_of_pos t (ha ▸ hp)]
    | false =>
      rw [List.find?_cons_of_neg t (by simp [hp]),
        List.find?_cons_of_neg t (by simp [← ha, hp]),
        ih (fun x hx => h x (List.mem_cons_of_mem a hx))]

theorem find?_erase_of_ne {α : Type} [DecidableEq α] {p : α → Bool} {a c : α} :
    ∀ {l : List α}, l.find? p = some a → a ≠ c → (l.erase c).find? p = some a := by
  intro l
  induction l with
  | nil => intro hf _; simp at hf
  | cons x t ih =>
    intro hf hne
    cases hp : p x with
    | true =>
      rw [List.find?_cons_of_pos t hp] at hf
      cases Option.some.inj hf
      rw [List.erase_cons_tail (by simp; exact hne)]
      exact List.find?_cons_of_pos _ hp
    | false =>
      rw [List.find?_cons_of_neg t (by simp [hp])] at hf
      by_cases hxc : x = c
      · subst hxc
        rw [List.erase_cons_head]
        exact hf
      · rw [List.erase_cons_tail (by simp; exact hxc)]
        rw [List.find?_cons_of_neg _ (by simp [hp])]
        exact ih hf hne

theorem find?_split {α : Type} {p : α → Bool} {a : α} :
    ∀ {l : List α}, l.find? p = some a →
      ∃ l₁ l₂, l = l₁ ++ a :: l₂ ∧ ∀ x ∈ l₁, p x = false := by
  intro l
  induction l with
  | nil => intro hf; simp at hf
  | cons x t ih =>
    intro hf
    cases hp : p x with
    | true =>
      rw [List.find?_cons_of_pos t hp] at hf
      cases Option.some.inj hf
      exact ⟨[], t, rfl, by simp⟩
    | false =>
      rw [List.find?_cons_of_neg t (by simp [hp])] at hf
      obtain ⟨l₁, l₂, rfl, hl₁⟩ := ih hf
      refine ⟨x :: l₁, l₂, rfl, ?_⟩
      intro y hy
      rcases List.mem_cons.mp hy with rfl | hy2
      · exact hp
      · exact hl₁ y hy2

theorem mem_probeSeq_ne {idx k0 j : Nat} (h : j ∈ probeSeq idx k0) : j ≠ idx := by
  simpa using List.mem_takeWhile_imp h

theorem mem_probeSeq_lt {idx k0 j : Nat} (h : j ∈ probeSeq idx k0) : j < NBUCKETS := by
  have h2 : j ∈ (List.range NBUCKETS).map (fun t => (k0 + t) % NBUCKETS) :=
    (List.takeWhile_sublist _).subset h
  obtain ⟨t, _, ht⟩ := List.mem_map.mp h2
  simp only [NBUCKETS] at ht ⊢
  omega

theorem probeSeq_closed_form :
    ∀ idx < 53, probeSeq idx ((idx + 1) % 53) =
      (List.range 52).map (fun t => ((idx + 1) % 53 + t) % 53) := by decide

theorem probeSeq_coverage {idx j : Nat} (hi : idx < 53) (hj : j < 53) (hne : j ≠ idx) :
    j ∈ probeSeq idx ((idx + 1) % 53) := by
  rw [probeSeq_closed_form idx hi]
  exact List.mem_map.mpr
    ⟨(j + 53 - (idx + 1) % 53) % 53, List.mem_range.mpr (by omega), by omega⟩

theorem updBuf_bufs (s : BCache) (b : Nat) (f : Buf → Buf) (x : Nat) :
    (updBuf s b f).bufs x = if x = b then f (s.bufs b) else s.bufs x := by
  by_cases h : x = b <;> simp [updBuf, h]

theorem updBuf_lists (s : BCache) (b : Nat) (f : Buf → Buf) :
    (updBuf s b f).lists = s.lists := rfl

theorem moveToFront_bufs (s : BCache) (idx c : Nat) :
    (moveToFront s idx c).bufs = s.bufs := rfl

theorem moveToFront_lists (s : BCache) (idx c i : Nat) :
    (moveToFront s idx c).lists i =
      if i = idx then c :: (s.lists i).erase c else (s.lists i).erase c := rfl

theorem keyOf_updBuf (s : BCache) (b : Nat) (f : Buf → Buf)
    (hf : ∀ v, (f v).dev = v.dev ∧ (f v).blockno = v.blockno) :
    keyOf (updBuf s b f) = keyOf s := by
  funext x
  simp only [keyOf, updBuf_bufs]
  by_cases h : x = b
  · subst h
    simp [(hf (s.bufs x)).1, (hf (s.bufs x)).2]
  · simp [h]

theorem keyFirst_updBuf (s : BCache) (b : Nat) (f : Buf → Buf)
    (hf : ∀ v, (f v).dev = v.dev ∧ (f v).blockno = v.blockno) (x : Nat) :
    keyFirst (updBuf s b f) x ↔ keyFirst s x := by
  have hk := keyOf_updBuf s b f hf
  have hb : ((updBuf s b f).bufs x).blockno = (s.bufs x).blockno := by
    have h2 := congrFun hk x
    simp only [keyOf, Prod.mk.injEq] at h2
    exact h2.2
  rw [keyFirst, keyFirst, updBuf_lists, hk, hb]

theorem evictFind_none {s : BCache} {j : Nat} :
    evictFind s j = none ↔ ∀ x ∈ s.lists j, (s.bufs x).refcnt ≠ 0 := by
  simp [evictFind, List.find?_eq_none, List.mem_reverse]

theorem evictFind_some {s : BCache} {j c : Nat} (h : evictFind s j = some c) :
    c ∈ s.lists j ∧ (s.bufs c).refcnt = 0 ∧
      ∃ l₁ l₂, s.lists j = l₁ ++ c :: l₂ ∧ ∀ x ∈ l₂, (s.bufs x).refcnt ≠ 0 := by
  have hc : (s.bufs c).refcnt = 0 := by simpa using List.find?_some h
  have hm : c ∈ s.lists j := List.mem_reverse.mp (List.mem_of_find?_eq_some h)
  obtain ⟨r₁, r₂, hrev, hr₁⟩ := find?_split h
  refine ⟨hm, hc, r₂.reverse, r₁.reverse, ?_, ?_⟩
  · have h2 := congrArg List.reverse hrev
    simpa [List.reverse_append] using h2
  · intro x hx
    have hx2 : x ∈ r₁ := List.mem_reverse.mp hx
    simpa using hr₁ x hx2

theorem probeLoop_ok {s : BCache} {idx d bn : Nat} {s2 : BCache} {c : Nat} :
    ∀ {seq : List Nat}, probeLoop s idx d bn seq = .ok s2 c →
      ∃ pre j post, seq = pre ++ j :: post ∧ (∀ j2 ∈ pre, evictFind s j2 = none) ∧
        evictFind s j = some c ∧ (s.bufs c).locked = false ∧
        s2 = lockBuf (claimBuf s idx c d bn) c := by
  intro seq
  induction seq with
  | nil => intro h; simp [probeLoop] at h
  | cons j rest ih =>
    intro h
    simp only [probeLoop] at h
    split at h
    · rename_i c2 he
      split at h
      · cases h
      · rename_i hl
        cases h
        exact ⟨[], j, rest, rfl, by simp, he, by simpa using hl, rfl⟩
    · rename_i he
      obtain ⟨pre, j2, post, rfl, hpre, hj2, hlock, hs⟩ := ih h
      refine ⟨j :: pre, j2, post, rfl, ?_, hj2, hlock, hs⟩
      intro x hx
      rcases List.mem_cons.mp hx with rfl | hx2
      · exact he
      · exact hpre x hx2

theorem probeLoop_panicked {s : BCache} {idx d bn : Nat} :
    ∀ {seq : List Nat},
      probeLoop s idx d bn seq = .panicked ↔ ∀ j ∈ seq, evictFind s j = none := by
  intro seq
  induction seq with
  | nil => simp [probeLoop]
  | cons j rest ih =>
    constructor
    · intro h
      simp only [probeLoop] at h
      split at h
      · rename_i c he
        split at h
        · cases h
        · cases h
      · rename_i he
        intro x hx
        rcases List.mem_cons.mp hx with rfl | hx2
        · exact he
        · exact ih.mp h x hx2
    · intro h
      have he : evictFind s j = none := h j (List.mem_cons_self j rest)
      simp only [probeLoop, he]
      exact ih.mpr fun x hx => h x (List.mem_cons_of_mem j hx)

theorem bget_ok_cases {s : BCache} {dev blockno : Nat} {s2 : BCache} {c : Nat}
    (h : bget s dev blockno = .ok s2 c) :
    (hitFind s (getIndex (blockno % U32)) (dev % U32) (blockno % U32) = some c ∧
      (s.bufs c).locked = false ∧ s2 = lockBuf (bumpRef s c) c) ∨
    (hitFind s (getIndex (blockno % U32)) (dev % U32) (blockno % U32) = none ∧
      ∃ pre j post,
        probeSeq (getIndex (blockno % U32)) (getIndex ((blockno % U32 + 1) % U32)) =
          pre ++ j :: post ∧
        (∀ j2 ∈ pre, evictFind s j2 = none) ∧ evictFind s j = some c ∧
        (s.bufs c).locked = false ∧
        s2 = lockBuf (claimBuf s (getIndex (blockno % U32)) c (dev % U32) (blockno % U32)) c) := by
  simp only [bget] at h
  split at h
  · rename_i m hh
    split at h
    · cases h
    · rename_i hl
      cases h
      exact Or.inl ⟨hh, by simpa using hl, rfl⟩
  · rename_i hh
    exact Or.inr ⟨hh, probeLoop_ok h⟩

/-- The inductive invariant of reachable cache states: every bucket list
is duplicate free and holds only real buffer indices, a buffer sits
exactly on the bucket list its block number hashes to, and every valid
or sleep-locked buffer is the first buffer carrying its key on that
list.  Indices at or above the pool size never hold the sleep lock. -/
structure Inv (n : Nat) (s : BCache) : Prop where
  nodup : ∀ j, (s.lists j).Nodup
  memBound : ∀ j, ∀ x ∈ s.lists j, x < n
  memShard : ∀ j, ∀ x ∈ s.lists j, getIndex (s.bufs x).blockno = j
  complete : ∀ x, x < n → x ∈ s.lists (getIndex (s.bufs x).blockno)
  firstValid : ∀ x, x < n → (s.bufs x).valid = true → keyFirst s x
  firstLocked : ∀ x, x < n → (s.bufs x).locked = true → keyFirst s x
  ghostUnlocked : ∀ x, n ≤ x → (s.bufs x).locked = false

theorem keyOf_eq_iff {s : BCache} {x y : Nat} :
    keyOf s x = keyOf s y ↔
      (s.bufs x).dev = (s.bufs y).dev ∧ (s.bufs x).blockno = (s.bufs y).blockno := by
  simp [keyOf, Prod.ext_iff]

theorem keyFirst_unique {s : BCache} {x y : Nat} (hx : keyFirst s x) (hy : keyFirst s y)
    (hk : keyOf s x = keyOf s y) : x = y := by
  have hb : (s.bufs x).blockno = (s.bufs y).blockno := (keyOf_eq_iff.mp hk).2
  rw [keyFirst, hb] at hx
  have hp : (fun y2 => decide (keyOf s y2 = keyOf s x)) =
      (fun y2 => decide (keyOf s y2 = keyOf s y)) := by
    funext y2
    rw [hk]
  rw [hp] at hx
  exact Option.some.inj (hx.symm.trans hy)

theorem Inv.uniqueValid {n : Nat} {s : BCache} (hI : Inv n s) : UniqueValid n s := by
  intro i hi j hj hne hvi hvj hk
  exact hne (keyFirst_unique (hI.firstValid i hi hvi) (hI.firstValid j hj hvj) hk)

theorem Inv.lockedBound {n : Nat} {s : BCache} (hI : Inv n s) {b : Nat}
    (hb : (s.bufs b).locked = true) : b < n := by
  by_contra h
  rw [hI.ghostUnlocked b (by omega)] at hb
  cases hb

theorem binit_lists_aux (l : List Nat) (s : BCache) :
    ((l.foldl
        (fun s b => { s with lists := fun i => if i = 0 then b :: s.lists 0 else s.lists i })
        s).lists 0 = l.reverse ++ s.lists 0) ∧
    (∀ i, i ≠ 0 →
      (l.foldl
        (fun s b => { s with lists := fun i => if i = 0 then b :: s.lists 0 else s.lists i })
        s).lists i = s.lists i) ∧
    (l.foldl
        (fun s b => { s with lists := fun i => if i = 0 then b :: s.lists 0 else s.lists i })
        s).bufs = s.bufs := by
  induction l generalizing s with
  | nil => simp
  | cons a t ih =>
    obtain ⟨h0, hi, hb⟩ := ih
      { s with lists := fun i => if i = 0 then a :: s.lists 0 else s.lists i }
    refine ⟨?_, ?_, ?_⟩
    · rw [List.foldl_cons, h0]
      simp
    · intro i hne
      rw [List.foldl_cons, hi i hne]
      simp [hne]
    · rw [List.foldl_cons, hb]

theorem binit_char (n : Nat) :
    (binit n).lists 0 = (List.range n).reverse ∧
    (∀ i, i ≠ 0 → (binit n).lists i = []) ∧
    (binit n).bufs = fun _ => initBuf := by
  obtain ⟨h0, hi, hb⟩ := binit_lists_aux (List.range n)
    { bufs := fun _ => initBuf, lists := fun _ => [] }
  exact ⟨by simpa using h0, fun i hne => by simpa using hi i hne, hb⟩

theorem inv_binit (n : Nat) : Inv n (binit n) := by
  obtain ⟨h0, hi, hb⟩ := binit_char n
  have hmem : ∀ j x, x ∈ (binit n).lists j → j = 0 ∧ x < n := by
    intro j x hx
    by_cases hj : j = 0
    · subst hj
      rw [h0] at hx
      exact ⟨rfl, by simpa using hx⟩
    · rw [hi j hj] at hx
      cases hx
  refine ⟨?_, ?_, ?_, ?_, ?_, ?_, ?_⟩
  · intro j
    by_cases hj : j = 0
    · subst hj
      rw [h0]
      exact List.nodup_reverse.mpr (List.nodup_range n)
    · rw [hi j hj]
      exact List.nodup_nil
  · intro j x hx
    exact (hmem j x hx).2
  · intro j x hx
    rw [(hmem j x hx).1, hb]
    rfl
  · intro x hx
    rw [hb]
    show x ∈ (binit n).lists (getIndex initBuf.blockno)
    have : getIndex initBuf.blockno = 0 := rfl
    rw [this, h0]
    simpa using hx
  · intro x _ hv
    rw [hb] at hv
    cases hv
  · intro x _ hl
    rw [hb] at hl
    cases hl
  · intro x _
    rw [hb]
    rfl

theorem Inv.updBuf_pres {n : Nat} {s : BCache} {b : Nat} {f : Buf → Buf} (hI : Inv n s)
    (hkey : ∀ v, (f v).dev = v.dev ∧ (f v).blockno = v.blockno)
    (hvalid : (f (s.bufs b)).valid = true → (s.bufs b).valid = true ∨ keyFirst s b)
    (hlocked : (f (s.bufs b)).locked = true → (s.bufs b).locked = true ∨ keyFirst s b)
    (hghost : n ≤ b → (f (s.bufs b)).locked = false) :
    Inv n (updBuf s b f) := by
  have hbuf : ∀ x, ((updBuf s b f).bufs x).blockno = (s.bufs x).blockno := by
    intro x
    rw [updBuf_bufs]
    by_cases h : x = b
    · subst h
      simp [(hkey (s.bufs x)).2]
    · simp [h]
  refine ⟨?_, ?_, ?_, ?_, ?_, ?_, ?_⟩
  · intro j
    exact hI.nodup j
  · intro j x hx
    exact hI.memBound j x hx
  · intro j x hx
    rw [hbuf x]
    exact hI.memShard j x hx
  · intro x hx
    show x ∈ s.lists (getIndex ((updBuf s b f).bufs x).blockno)
    rw [hbuf x]
    exact hI.complete x hx
  · intro x hx hv
    refine (keyFirst_updBuf s b f hkey x).mpr ?_
    rw [updBuf_bufs] at hv
    by_cases h : x = b
    · subst h
      rw [if_pos rfl] at hv
      rcases hvalid hv with h2 | h2
      · exact hI.firstValid x hx h2
      · exact h2
    · rw [if_neg h] at hv
      exact hI.firstValid x hx hv
  · intro x hx hl
    refine (keyFirst_updBuf s b f hkey x).mpr ?_
    rw [updBuf_bufs] at hl
    by_cases h : x = b
    · subst h
      rw [if_pos rfl] at hl
      rcases hlocked hl with h2 | h2
      · exact hI.firstLocked x hx h2
      · exact h2
    · rw [if_neg h] at hl
      exact hI.firstLocked x hx hl
  · intro x hx
    rw [updBuf_bufs]
    by_cases h : x = b
    · subst h
      rw [if_pos rfl]
      exact hghost hx
    · rw [if_neg h]
      exact hI.ghostUnlocked x hx

theorem keyFirst_moveToFront {s : BCache} {b x : Nat}
    (hkfb : keyFirst s b) (hx : keyFirst s x) :
    keyFirst (moveToFront s (getIndex (s.bufs b).blockno) b) x := by
  show ((moveToFront s (getIndex (s.bufs b).blockno) b).lists
      (getIndex (s.bufs x).blockno)).find?
      (fun y => decide (keyOf s y = keyOf s x)) = some x
  rw [moveToFront_lists]
  by_cases hxb : x = b
  · subst hxb
    rw [if_pos rfl]
    exact List.find?_cons_of_pos _ (by simp)
  · have hpb : (decide (keyOf s b = keyOf s x)) = false := by
      rw [decide_eq_false_iff_not]
      intro hk
      exact hxb (keyFirst_unique hx hkfb hk.symm)
    by_cases hio : getIndex (s.bufs x).blockno = getIndex (s.bufs b).blockno
    · rw [if_pos hio]
      rw [List.find?_cons_of_neg _ (by simp [hpb])]
      exact find?_erase_of_ne hx hxb
    · rw [if_neg hio]
      exact find?_erase_of_ne hx hxb

theorem Inv.moveToFront_pres {n : Nat} {s : BCache} {b : Nat} (hI : Inv n s) (hbn : b < n)
    (hkf : keyFirst s b) :
    Inv n (moveToFront s (getIndex (s.bufs b).blockno) b) := by
  have hbin : b ∈ s.lists (getIndex (s.bufs b).blockno) := hI.complete b hbn
  refine ⟨?_, ?_, ?_, ?_, ?_, ?_, ?_⟩
  · intro j
    rw [moveToFront_lists]
    by_cases hj : j = getIndex (s.bufs b).blockno
    · rw [if_pos hj]
      refine List.nodup_cons.mpr ⟨?_, (hI.nodup j).erase b⟩
      intro h
      exact ((hI.nodup j).mem_erase_iff.mp h).1 rfl
    · rw [if_neg hj]
      exact (hI.nodup j).erase b
  · intro j x hx
    rw [moveToFront_lists] at hx
    by_cases hj : j = getIndex (s.bufs b).blockno
    · rw [if_pos hj] at hx
      rcases List.mem_cons.mp hx with rfl | hx2
      · exact hbn
      · exact hI.memBound j x (List.mem_of_mem_erase hx2)
    · rw [if_neg hj] at hx
      exact hI.memBound j x (List.mem_of_mem_erase hx)
  · intro j x hx
    rw [moveToFront_lists] at hx
    show getIndex (s.bufs x).blockno = j
    by_cases hj : j = getIndex (s.bufs b).blockno
    · rw [if_pos hj] at hx
      rcases List.mem_cons.mp hx with rfl | hx2
      · exact hj.symm
      · exact hI.memShard j x (List.mem_of_mem_erase hx2)
    · rw [if_neg hj] at hx
      exact hI.memShard j x (List.mem_of_mem_erase hx)
  · intro x hx
    show x ∈ (moveToFront s (getIndex (s.bufs b).blockno) b).lists
      (getIndex (s.bufs x).blockno)
    rw [moveToFront_lists]
    by_cases hxb : x = b
    · subst hxb
      rw [if_pos rfl]
      exact List.mem_cons_self _ _
    · by_cases hio : getIndex (s.bufs x).blockno = getIndex (s.bufs b).blockno
      · rw [if_pos hio]
        exact List.mem_cons_of_mem _ ((List.mem_erase_of_ne hxb).mpr (hI.complete x hx))
      · rw [if_neg hio]
        exact (List.mem_erase_of_ne hxb).mpr (hI.complete x hx)
  · intro x hx hv
    exact keyFirst_moveToFront hkf (hI.firstValid x hx hv)
  · intro x hx hl
    exact keyFirst_moveToFront hkf (hI.firstLocked x hx hl)
  · intro x hx
    exact hI.ghostUnlocked x hx

theorem claim_bufs (s : BCache) (idx c d bn x : Nat) :
    (lockBuf (claimBuf s idx c d bn) c).bufs x =
      if x = c then
        { dev := d, blockno := bn, valid := false, refcnt := 1, locked := true }
      else s.bufs x := by
  by_cases h : x = c <;> simp [lockBuf, claimBuf, moveToFront, updBuf, h]

theorem claim_lists (s : BCache) (idx c d bn i : Nat) :
    (lockBuf (claimBuf s idx c d bn) c).lists i =
      if i = idx then c :: (s.lists i).erase c else (s.lists i).erase c := rfl

theorem claim_keyOf_ne (s : BCache) (idx c d bn x : Nat) (hxc : x ≠ c) :
    keyOf (lockBuf (claimBuf s idx c d bn) c) x = keyOf s x := by
  simp [keyOf, claim_bufs, hxc]

theorem claim_keyOf_self (s : BCache) (idx c d bn : Nat) :
    keyOf (lockBuf (claimBuf s idx c d bn) c) c = (d, bn) := by
  simp [keyOf, claim_bufs]

theorem keyFirst_claim_self {s : BCache} {c d bn : Nat} :
    keyFirst (lockBuf (claimBuf s (getIndex bn) c d bn) c) c := by
  unfold keyFirst
  have h1 : ((lockBuf (claimBuf s (getIndex bn) c d bn) c).bufs c).blockno = bn := by
    rw [claim_bufs, if_pos rfl]
  rw [h1, claim_lists, if_pos rfl]
  exact List.find?_cons_of_pos _ (by simp)

theorem keyFirst_claim {n : Nat} {s : BCache} {d bn c x : Nat} (hI : Inv n s)
    (hmiss : hitFind s (getIndex bn) d bn = none)
    (hxn : x < n) (hxc : x ≠ c) (hkf : keyFirst s x) :
    keyFirst (lockBuf (claimBuf s (getIndex bn) c d bn) c) x := by
  have hkx : keyOf s x ≠ (d, bn) := by
    intro hk
    have hdx : (s.bufs x).dev = d := congrArg Prod.fst hk
    have hbx : (s.bufs x).blockno = bn := congrArg Prod.snd hk
    have hmem : x ∈ s.lists (getIndex bn) := by
      have h2 := hI.complete x hxn
      rw [hbx] at h2
      exact h2
    have h3 := List.find?_eq_none.mp hmiss x hmem
    simp [hdx, hbx] at h3
  unfold keyFirst
  have hsh : ((lockBuf (claimBuf s (getIndex bn) c d bn) c).bufs x).blockno =
      (s.bufs x).blockno := by
    rw [claim_bufs, if_neg hxc]
  rw [hsh, claim_lists]
  have hcongr : ∀ y ∈ (s.lists (getIndex (s.bufs x).blockno)).erase c,
      (decide (keyOf (lockBuf (claimBuf s (getIndex bn) c d bn) c) y =
        keyOf (lockBuf (claimBuf s (getIndex bn) c d bn) c) x)) =
      (decide (keyOf s y = keyOf s x)) := by
    intro y hy
    have hyc : y ≠ c := ((hI.nodup _).mem_erase_iff.mp hy).1
    rw [claim_keyOf_ne _ _ _ _ _ _ hyc, claim_keyOf_ne _ _ _ _ _ _ hxc]
  by_cases hio : getIndex (s.bufs x).blockno = getIndex bn
  · rw [if_pos hio]
    have hqc : (decide (keyOf (lockBuf (claimBuf s (getIndex bn) c d bn) c) c =
        keyOf (lockBuf (claimBuf s (getIndex bn) c d bn) c) x)) = false := by
      rw [claim_keyOf_self, claim_keyOf_ne _ _ _ _ _ _ hxc, decide_eq_false_iff_not]
      exact fun h => hkx h.symm
    rw [List.find?_cons_of_neg _ (by simp [hqc])]
    rw [find?_congr_mem hcongr]
    exact find?_erase_of_ne hkf hxc
  · rw [if_neg hio]
    rw [find?_congr_mem hcongr]
    exact find?_erase_of_ne hkf hxc

theorem Inv.claim_pres {n : Nat} {s : BCache} {d bn c j : Nat} (hI : Inv n s)
    (hmiss : hitFind s (getIndex bn) d bn = none)
    (hev : evictFind s j = some c) (hjne : j ≠ getIndex bn) :
    Inv n (lockBuf (claimBuf s (getIndex bn) c d bn) c) := by
  obtain ⟨hcmem, hcref, _⟩ := evictFind_some hev
  have hcn : c < n := hI.memBound j c hcmem
  have hcshard : getIndex (s.bufs c).blockno = j := hI.memShard j c hcmem
  have hcnot : c ∉ s.lists (getIndex bn) := by
    intro h
    have h2 := hI.memShard (getIndex bn) c h
    rw [hcshard] at h2
    exact hjne h2
  refine ⟨?_, ?_, ?_, ?_, ?_, ?_, ?_⟩
  · intro j2
    rw [claim_lists]
    by_cases hj : j2 = getIndex bn
    · rw [if_pos hj]
      refine List.nodup_cons.mpr ⟨?_, (hI.nodup j2).erase c⟩
      intro h
      rw [hj] at h
      exact hcnot (List.mem_of_mem_erase h)
    · rw [if_neg hj]
      exact (hI.nodup j2).erase c
  · intro j2 x hx
    rw [claim_lists] at hx
    by_cases hj : j2 = getIndex bn
    · rw [if_pos hj] at hx
      rcases List.mem_cons.mp hx with rfl | hx2
      · exact hcn
      · exact hI.memBound j2 x (List.mem_of_mem_erase hx2)
    · rw [if_neg hj] at hx
      exact hI.memBound j2 x (List.mem_of_mem_erase hx)
  · intro j2 x hx
    rw [claim_lists] at hx
    by_cases hj : j2 = getIndex bn
    · rw [if_pos hj] at hx
      rcases List.mem_cons.mp hx with rfl | hx2
      · rw [claim_bufs, if_pos rfl]
        exact hj.symm
      · have hxl : x ∈ s.lists j2 := List.mem_of_mem_erase hx2
        have hxc : x ≠ c := by
          intro h
          subst h
          rw [hj] at hxl
          exact hcnot hxl
        rw [claim_bufs, if_neg hxc]
        exact hI.memShard j2 x hxl
    · rw [if_neg hj] at hx
      have hxc : x ≠ c := fun h => ((hI.nodup j2).mem_erase_iff.mp (h ▸ hx)).1 rfl
      rw [claim_bufs, if_neg hxc]
      exact hI.memShard j2 x (List.mem_of_mem_erase hx)
  · intro x hx
    by_cases hxc : x = c
    · subst hxc
      have h1 : ((lockBuf (claimBuf s (getIndex bn) x d bn) x).bufs x).blockno = bn := by
        rw [claim_bufs, if_pos rfl]
      rw [h1, claim_lists, if_pos rfl]
      exact List.mem_cons_self _ _
    · have h1 : ((lockBuf (claimBuf s (getIndex bn) c d bn) c).bufs x).blockno =
          (s.bufs x).blockno := by
        rw [claim_bufs, if_neg hxc]
      rw [h1, claim_lists]
      by_cases hio : getIndex (s.bufs x).blockno = getIndex bn
      · rw [if_pos hio]
        exact List.mem_cons_of_mem _ ((List.mem_erase_of_ne hxc).mpr (hI.complete x hx))
      · rw [if_neg hio]
        exact (List.mem_erase_of_ne hxc).mpr (hI.complete x hx)
  · intro x hx hv
    by_cases hxc : x = c
    · subst hxc
      rw [claim_bufs, if_pos rfl] at hv
      cases hv
    · rw [claim_bufs, if_neg hxc] at hv
      exact keyFirst_claim hI hmiss hx hxc (hI.firstValid x hx hv)
  · intro x hx hl
    by_cases hxc : x = c
    · subst hxc
      exact keyFirst_claim_self
    · rw [claim_bufs, if_neg hxc] at hl
      exact keyFirst_claim hI hmiss hx hxc (hI.firstLocked x hx hl)
  · intro x hx
    have hxc : x ≠ c := by omega
    rw [claim_bufs, if_neg hxc]
    exact hI.ghostUnlocked x hx

theorem Inv.hit_pres {n : Nat} {s : BCache} {idx d bn m : Nat} (hI : Inv n s)
    (hh : hitFind s idx d bn = some m) :
    Inv n (lockBuf (bumpRef s m) m) := by
  have hmem : m ∈ s.lists idx := List.mem_of_find?_eq_some hh
  have hmn : m < n := hI.memBound idx m hmem
  have hpm : (s.bufs m).dev = d ∧ (s.bufs m).blockno = bn := by
    simpa using List.find?_some hh
  have hshard : getIndex (s.bufs m).blockno = idx := hI.memShard idx m hmem
  have hkfm : keyFirst s m := by
    unfold keyFirst
    rw [hshard]
    have hp : (fun y => decide (keyOf s y = keyOf s m)) =
        (fun y => decide ((s.bufs y).dev = d ∧ (s.bufs y).blockno = bn)) := by
      funext y
      rw [decide_eq_decide, keyOf_eq_iff, hpm.1, hpm.2]
    rw [hp]
    exact hh
  have h1 : Inv n (bumpRef s m) := hI.updBuf_pres (fun v => ⟨rfl, rfl⟩)
    (fun hv => Or.inl hv) (fun hl => Or.inl hl)
    (fun hg => hI.ghostUnlocked m hg)
  exact h1.updBuf_pres (fun v => ⟨rfl, rfl⟩)
    (fun hv => Or.inl hv)
    (fun _ => Or.inr
      ((keyFirst_updBuf s m (fun v => { v with refcnt := incr32 v.refcnt })
        (fun v => ⟨rfl, rfl⟩) m).mpr hkfm))
    (fun hg => (Nat.lt_irrefl m (Nat.lt_of_lt_of_le hmn hg)).elim)

theorem Inv.bget_pres {n : Nat} {s s2 : BCache} {dv bn c : Nat} (hI : Inv n s)
    (h : bget s dv bn = .ok s2 c) : Inv n s2 := by
  rcases bget_ok_cases h with ⟨hh, _, rfl⟩ |
    ⟨hmiss, pre, j, post, hseq, _, hev, _, rfl⟩
  · exact hI.hit_pres hh
  · have hjmem : j ∈ probeSeq (getIndex (bn % U32)) (getIndex ((bn % U32 + 1) % U32)) := by
      rw [hseq]
      exact List.mem_append_right _ (List.mem_cons_self _ _)
    exact hI.claim_pres hmiss hev (mem_probeSeq_ne hjmem)

theorem bget_ok_locked {s s2 : BCache} {dv bn c : Nat}
    (h : bget s dv bn = .ok s2 c) : (s2.bufs c).locked = true := by
  rcases bget_ok_cases h with ⟨_, _, rfl⟩ | ⟨_, _, _, _, _, _, _, _, rfl⟩
  · simp [lockBuf, updBuf_bufs]
  · rw [claim_bufs, if_pos rfl]

theorem Inv.validate_pres {n : Nat} {s : BCache} {m : Nat} (hI : Inv n s)
    (hl : (s.bufs m).locked = true) :
    Inv n (updBuf s m (fun v => { v with valid := true })) := by
  have hmn : m < n := hI.lockedBound hl
  exact hI.updBuf_pres (fun v => ⟨rfl, rfl⟩)
    (fun _ => Or.inr (hI.firstLocked m hmn hl))
    (fun hlk => Or.inl hlk)
    (fun hg => (Nat.lt_irrefl m (Nat.lt_of_lt_of_le hmn hg)).elim)

theorem bread_ok_cases {s s2 : BCache} {dv bn b r : Nat}
    (h : bread s dv bn = .ok s2 b r) :
    ∃ s1, bget s dv bn = .ok s1 b ∧
      (((s1.bufs b).valid = true ∧ s2 = s1 ∧ r = 0) ∨
       ((s1.bufs b).valid = false ∧
         s2 = updBuf s1 b (fun v => { v with valid := true }) ∧ r = 1)) := by
  simp only [bread] at h
  split at h
  · rename_i s1 b1 hb
    split at h
    · rename_i hv
      cases h
      exact ⟨_, hb, Or.inl ⟨by simpa using hv, rfl, rfl⟩⟩
    · rename_i hv
      cases h
      exact ⟨_, hb, Or.inr ⟨by simpa using hv, rfl, rfl⟩⟩
  · cases h
  · cases h

theorem Inv.brelse_pres {n : Nat} {s s2 : BCache} {b : Nat} (hI : Inv n s)
    (h : brelse s b = some s2) : Inv n s2 := by
  simp only [brelse] at h
  split at h
  · rename_i hl
    have hl2 : (s.bufs b).locked = true := by simpa using hl
    have hbn : b < n := hI.lockedBound hl2
    have hkfb : keyFirst s b := hI.firstLocked b hbn hl2
    have h1 : Inv n (updBuf s b
        (fun v => { v with locked := false, refcnt := decr32 v.refcnt })) :=
      hI.updBuf_pres (fun v => ⟨rfl, rfl⟩)
        (fun hv => Or.inl hv)
        (fun hfalse => absurd hfalse (by simp))
        (fun _ => rfl)
    have hkf1 : keyFirst (updBuf s b
        (fun v => { v with locked := false, refcnt := decr32 v.refcnt })) b :=
      (keyFirst_updBuf s b (fun v => { v with locked := false, refcnt := decr32 v.refcnt })
        (fun v => ⟨rfl, rfl⟩) b).mpr hkfb
    have hbb : ((updBuf s b
        (fun v => { v with locked := false, refcnt := decr32 v.refcnt })).bufs b).blockno =
        (s.bufs b).blockno := by
      rw [updBuf_bufs, if_pos rfl]
    cases Option.some.inj h
    split
    · rw [← hbb]
      exact h1.moveToFront_pres hbn hkf1
    · exact h1
  · cases h

theorem Inv.stepOp_pres {n : Nat} {s s2 : BCache} {op : Op} (hI : Inv n s)
    (h : stepOp s op = some s2) : Inv n s2 := by
  cases op with
  | get dv bn =>
    simp only [stepOp] at h
    split at h
    · rename_i s3 c hb
      cases Option.some.inj h
      exact hI.bget_pres hb
    · cases h
  | read dv bn =>
    simp only [stepOp] at h
    split at h
    · rename_i s3 b r hbr
      cases Option.some.inj h
      obtain ⟨s1, hb, hcases⟩ := bread_ok_cases hbr
      have hI1 : Inv n s1 := hI.bget_pres hb
      rcases hcases with ⟨_, rfl, _⟩ | ⟨_, rfl, _⟩
      · exact hI1
      · exact hI1.validate_pres (bget_ok_locked hb)
    · cases h
  | write b =>
    simp only [stepOp, bwrite] at h
    split at h
    · simp only [Option.map_some'] at h
      cases Option.some.inj h
      exact hI
    · simp only [Option.map_none'] at h
      cases h
  | release b => exact hI.brelse_pres h
  | pin b =>
    simp only [stepOp] at h
    cases Option.some.inj h
    show Inv n (updBuf s b (fun v => { v with refcnt := incr32 v.refcnt }))
    exact hI.updBuf_pres (fun v => ⟨rfl, rfl⟩) (fun hv => Or.inl hv)
      (fun hl => Or.inl hl) (fun hg => hI.ghostUnlocked b hg)
  | unpin b =>
    simp only [stepOp] at h
    cases Option.some.inj h
    show Inv n (updBuf s b (fun v => { v with refcnt := decr32 v.refcnt }))
    exact hI.updBuf_pres (fun v => ⟨rfl, rfl⟩) (fun hv => Or.inl hv)
      (fun hl => Or.inl hl) (fun hg => hI.ghostUnlocked b hg)

theorem reachable_inv {n : Nat} {s : BCache} (h : Reachable n s) : Inv n s := by
  induction h with
  | init => exact inv_binit n
  | step op hr hstep ih => exact ih.stepOp_pres hstep

theorem keyOf_lockBuf (s : BCache) (c : Nat) : keyOf (lockBuf s c) = keyOf s :=
  keyOf_updBuf s c (fun v => { v with locked := true }) (fun _ => ⟨rfl, rfl⟩)

theorem keyOf_bumpRef (s : BCache) (b : Nat) : keyOf (bumpRef s b) = keyOf s :=
  keyOf_updBuf s b (fun v => { v with refcnt := incr32 v.refcnt }) (fun _ => ⟨rfl, rfl⟩)

theorem bget_keyOf {s s2 : BCache} {dv bn c : Nat} (h : bget s dv bn = .ok s2 c)
    (x : Nat) : keyOf s2 x = keyOf s x ∨ (x = c ∧ (s.bufs x).refcnt = 0) := by
  rcases bget_ok_cases h with ⟨_, _, rfl⟩ | ⟨_, _, _, _, _, _, hev, _, rfl⟩
  · left
    rw [keyOf_lockBuf, keyOf_bumpRef]
  · by_cases hxc : x = c
    · right
      exact ⟨hxc, hxc ▸ (evictFind_some hev).2.1⟩
    · left
      exact claim_keyOf_ne _ _ _ _ _ _ hxc

theorem brelse_keyOf {s s2 : BCache} {b : Nat} (h : brelse s b = some s2) (x : Nat) :
    keyOf s2 x = keyOf s x := by
  simp only [brelse] at h
  split at h
  · cases Option.some.inj h
    split
    · exact congrFun (keyOf_updBuf s b
        (fun v => { v with locked := false, refcnt := decr32 v.refcnt })
        (fun v => ⟨rfl, rfl⟩)) x
    · exact congrFun (keyOf_updBuf s b
        (fun v => { v with locked := false, refcnt := decr32 v.refcnt })
        (fun v => ⟨rfl, rfl⟩)) x
  · cases h

theorem getIndex_lt (bn : Nat) : getIndex bn < 53 := by
  simp only [getIndex, NBUCKETS]
  omega

theorem probeSeq_start (bn : Nat) (h : bn + 1 < U32) :
    getIndex ((bn + 1) % U32) = (getIndex bn + 1) % 53 := by
  simp only [getIndex, NBUCKETS, U32] at *
  omega

/-- Claim C10: after binit every one of the n buffers is linked into the
list of bucket 0, in reverse index order from the MRU end, and the list
of every other bucket is empty. -/
theorem binit_all_in_bucket_zero (n : Nat) :
    (binit n).lists 0 = (List.range n).reverse ∧
    (∀ x < n, x ∈ (binit n).lists 0) ∧
    (∀ j, j ≠ 0 → (binit n).lists j = []) := by
  obtain ⟨h0, hi, _⟩ := binit_char n
  refine ⟨h0, ?_, hi⟩
  intro x hx
  rw [h0]
  simpa using hx

/-- Claim C9: bwrite panics exactly when the caller does not hold the
sleep lock of the buffer; when it does, bwrite performs one write
transfer and leaves the whole cache state unchanged. -/
theorem bwrite_contract (s : BCache) (b : Nat) :
    ((bwrite s b = none) ↔ (s.bufs b).locked = false) ∧
    (∀ s2 w, bwrite s b = some (s2, w) → s2 = s ∧ w = 1) := by
  constructor
  · constructor
    · intro h
      by_contra hl
      simp [bwrite, show (s.bufs b).locked = true by simpa using hl] at h
    · intro h
      simp [bwrite, h]
  · intro s2 w h
    simp only [bwrite] at h
    split at h
    · have h2 := Option.some.inj h
      rw [Prod.mk.injEq] at h2
      exact ⟨h2.1.symm, h2.2.symm⟩
    · cases h

/-- Claim C8: brelse panics exactly when the sleep lock is not held;
otherwise it releases the lock, decrements the reference count in uint
arithmetic, leaves identity and validity alone, and on reaching count 0
moves the buffer to the MRU end of its bucket; and the eviction scan of
any bucket picks the reference-count-0 buffer closest to the LRU end,
so of several released buffers the least recently released one is
reclaimed first. -/
theorem brelse_contract (s : BCache) (b : Nat) :
    ((brelse s b = none) ↔ (s.bufs b).locked = false) ∧
    (∀ s2, brelse s b = some s2 →
      (s2.bufs b).locked = false ∧
      (s2.bufs b).refcnt = decr32 (s.bufs b).refcnt ∧
      (s2.bufs b).dev = (s.bufs b).dev ∧
      (s2.bufs b).blockno = (s.bufs b).blockno ∧
      (s2.bufs b).valid = (s.bufs b).valid ∧
      (decr32 (s.bufs b).refcnt ≠ 0 → s2.lists = s.lists) ∧
      (decr32 (s.bufs b).refcnt = 0 →
        s2.lists (getIndex (s.bufs b).blockno) =
          b :: (s.lists (getIndex (s.bufs b).blockno)).erase b ∧
        ∀ j, j ≠ getIndex (s.bufs b).blockno → s2.lists j = (s.lists j).erase b)) ∧
    (∀ j c, evictFind s j = some c →
      c ∈ s.lists j ∧ (s.bufs c).refcnt = 0 ∧
      ∃ l₁ l₂, s.lists j = l₁ ++ c :: l₂ ∧ ∀ x ∈ l₂, (s.bufs x).refcnt ≠ 0) := by
  refine ⟨⟨?_, ?_⟩, ?_, fun j c h => evictFind_some h⟩
  · intro h
    by_contra hl
    simp [brelse, show (s.bufs b).locked = true by simpa using hl] at h
  · intro h
    simp [brelse, h]
  · intro s2 h
    simp only [brelse] at h
    split at h
    · have hcond : ((updBuf s b
          (fun v => { v with locked := false, refcnt := decr32 v.refcnt })).bufs b).refcnt =
          decr32 (s.bufs b).refcnt := by
        rw [updBuf_bufs, if_pos rfl]
      cases Option.some.inj h
      have hbufs : (if ((updBuf s b
          (fun v => { v with locked := false, refcnt := decr32 v.refcnt })).bufs b).refcnt = 0
          then moveToFront (updBuf s b
            (fun v => { v with locked := false, refcnt := decr32 v.refcnt }))
            (getIndex (s.bufs b).blockno) b
          else updBuf s b
            (fun v => { v with locked := false, refcnt := decr32 v.refcnt })).bufs =
          (updBuf s b
            (fun v => { v with locked := false, refcnt := decr32 v.refcnt })).bufs := by
        split <;> rfl
      refine ⟨?_, ?_, ?_, ?_, ?_, ?_, ?_⟩
      · rw [hbufs, updBuf_bufs, if_pos rfl]
      · rw [hbufs, updBuf_bufs, if_pos rfl]
      · rw [hbufs, updBuf_bufs, if_pos rfl]
      · rw [hbufs, updBuf_bufs, if_pos rfl]
      · rw [hbufs, updBuf_bufs, if_pos rfl]
      · intro hne
        rw [if_neg (by rw [hcond]; exact hne)]
        rfl
      · intro h0
        rw [if_pos (by rw [hcond]; exact h0)]
        constructor
        · rw [moveToFront_lists, if_pos rfl]
          rfl
        · intro j hj
          rw [moveToFront_lists, if_neg hj]
          rfl
    · cases h

/-- Claim C7: when bread returns, the returned buffer is valid; a hit on
an already valid buffer performs zero disk transfers and changes
nothing, while a buffer whose valid flag is clear costs exactly one read
transfer; bread blocks or panics exactly as bget does. -/
theorem bread_contract (s : BCache) (dev blockno : Nat) :
    match bget s dev blockno, bread s dev blockno with
    | .ok s1 b1, .ok s2 b r =>
        b = b1 ∧ (s2.bufs b).valid = true ∧
        ((s1.bufs b1).valid = true → r = 0 ∧ s2 = s1) ∧
        ((s1.bufs b1).valid = false → r = 1)
    | .blocked, .blocked => True
    | .panicked, .panicked => True
    | _, _ => False := by
  cases hb : bget s dev blockno with
  | ok s1 b1 =>
    by_cases hv : (s1.bufs b1).valid = true
    · have hbr : bread s dev blockno = .ok s1 b1 0 := by
        simp [bread, hb, hv]
      rw [hbr]
      exact ⟨rfl, hv, fun _ => ⟨rfl, rfl⟩, fun hf => by rw [hf] at hv; cases hv⟩
    · have hv2 : (s1.bufs b1).valid = false := by simpa using hv
      have hbr : bread s dev blockno =
          .ok (updBuf s1 b1 (fun v => { v with valid := true })) b1 1 := by
        simp [bread, hb, hv2]
      rw [hbr]
      refine ⟨rfl, ?_, fun ht => absurd ht hv, fun _ => rfl⟩
      rw [updBuf_bufs, if_pos rfl]
  | blocked =>
    have hbr : bread s dev blockno = .blocked := by simp [bread, hb]
    rw [hbr]
    trivial
  | panicked =>
    have hbr : bread s dev blockno = .panicked := by simp [bread, hb]
    rw [hbr]
    trivial

/-- Claim C6: a buffer returned by bget is sleep-locked and carries the
requested device and block number; on a hit it is the buffer the scan
found, with its reference count incremented and its valid flag
untouched; on a miss it is freshly claimed, invalid, with reference
count 1. -/
theorem bget_return_contract (s : BCache) (dev blockno : Nat) :
    match bget s dev blockno with
    | .ok s2 b =>
      (s2.bufs b).locked = true ∧
      (s2.bufs b).dev = dev % U32 ∧ (s2.bufs b).blockno = blockno % U32 ∧
      (match hitFind s (getIndex (blockno % U32)) (dev % U32) (blockno % U32) with
       | some m => b = m ∧ (s2.bufs b).refcnt = incr32 ((s.bufs b).refcnt) ∧
           (s2.bufs b).valid = (s.bufs b).valid
       | none => (s2.bufs b).valid = false ∧ (s2.bufs b).refcnt = 1)
    | .blocked => True
    | .panicked => True := by
  cases hb : bget s dev blockno with
  | blocked => trivial
  | panicked => trivial
  | ok s2 b =>
    rcases bget_ok_cases hb with ⟨hh, _, rfl⟩ | ⟨hmiss, _, _, _, _, _, _, _, rfl⟩
    · have hpm : (s.bufs b).dev = dev % U32 ∧ (s.bufs b).blockno = blockno % U32 := by
        simpa using List.find?_some hh
      have hbb : (lockBuf (bumpRef s b) b).bufs b =
          { s.bufs b with refcnt := incr32 ((s.bufs b).refcnt), locked := true } := by
        simp [lockBuf, bumpRef, updBuf]
      rw [hh]
      exact ⟨by rw [hbb], by rw [hbb]; exact hpm.1, by rw [hbb]; exact hpm.2,
        rfl, by rw [hbb], by rw [hbb]⟩
    · rw [hmiss]
      refine ⟨?_, ?_, ?_, ?_, ?_⟩ <;> rw [claim_bufs, if_pos rfl]

/-- Claim C5: across every completed operation, a buffer whose (device,
block) identity changes had reference count 0 in the state before the
operation; buffers with a positive count are never reclaimed. -/
theorem identity_reassign_requires_refcnt_zero (s : BCache) (op : Op) :
    match stepOp s op with
    | some s2 => ∀ x, keyOf s2 x ≠ keyOf s x → (s.bufs x).refcnt = 0
    | none => True := by
  cases op with
  | get dv bn =>
    cases hb : bget s dv bn with
    | ok s2 c =>
      simp only [stepOp, hb]
      intro x hx
      rcases bget_keyOf hb x with hk | ⟨rfl, h0⟩
      · exact absurd hk hx
      · exact h0
    | blocked => simp [stepOp, hb]
    | panicked => simp [stepOp, hb]
  | read dv bn =>
    cases hbr : bread s dv bn with
    | ok s2 b r =>
      simp only [stepOp, hbr]
      intro x hx
      obtain ⟨s1, hb, hcase⟩ := bread_ok_cases hbr
      have hx1 : keyOf s2 x = keyOf s1 x := by
        rcases hcase with ⟨_, rfl, _⟩ | ⟨_, rfl, _⟩
        · rfl
        · exact congrFun (keyOf_updBuf s1 b (fun v => { v with valid := true })
            (fun v => ⟨rfl, rfl⟩)) x
      rcases bget_keyOf hb x with hk | ⟨rfl, h0⟩
      · exact absurd (hx1.trans hk) hx
      · exact h0
    | blocked => simp [stepOp, hbr]
    | panicked => simp [stepOp, hbr]
  | write b =>
    by_cases hl : (s.bufs b).locked = true
    · have hw : stepOp s (Op.write b) = some s := by
        simp [stepOp, bwrite, hl]
      simp only [hw]
      intro x hx
      exact (hx rfl).elim
    · have hw : stepOp s (Op.write b) = none := by
        simp [stepOp, bwrite, hl]
      simp [hw]
  | release b =>
    cases hr : brelse s b with
    | some s2 =>
      simp only [stepOp, hr]
      intro x hx
      exact absurd (brelse_keyOf hr x) hx
    | none => simp [stepOp, hr]
  | pin b =>
    simp only [stepOp]
    intro x hx
    exact absurd (congrFun (keyOf_bumpRef s b) x) hx
  | unpin b =>
    simp only [stepOp]
    intro x hx
    exact absurd (congrFun (keyOf_updBuf s b
      (fun v => { v with refcnt := decr32 v.refcnt }) (fun v => ⟨rfl, rfl⟩)) x) hx

/-- Claim C4: in every state reachable from binit by completed
operations, no two distinct buffers are simultaneously valid for the
same (device, block) pair. -/
theorem reachable_unique_valid (n : Nat) (s : BCache) (h : Reachable n s) :
    UniqueValid n s :=
  (reachable_inv h).uniqueValid

/-- Witness for C4: the initial two-buffer state is reachable and has no
duplicate valid keys. -/
theorem reachable_unique_valid_witness :
    Reachable 2 (binit 2) ∧ UniqueValid 2 (binit 2) :=
  ⟨Reachable.init, reachable_unique_valid 2 (binit 2) Reachable.init⟩

/-- Counterexample to claim C1: in the three-buffer initial state the
request (1, 0) misses in its target shard 0 while that shard holds
reference-count-0 buffers, yet bget does not claim any of them: it
probes only the other shards and panics.  The code has no local
candidate scan at all, so the specified policy of probing other shards
only when the target shard lacks a local candidate is violated. -/
theorem bget_ignores_local_free_buffer :
    hitFind (binit 3) (getIndex (0 % U32)) (1 % U32) (0 % U32) = none ∧
    (binit 3).lists (getIndex (0 % U32)) ≠ [] ∧
    (∀ x ∈ (binit 3).lists (getIndex (0 % U32)), ((binit 3).bufs x).refcnt = 0) ∧
    bget (binit 3) 1 0 = BGetResult.panicked :=
  ⟨by decide, by decide, by decide, rfl⟩

/-- Amended claim C1: on a miss bget never considers the target shard.
It unconditionally probes the other shards, starting from
getIndex(blockno + 1) and stepping in hash order, every probed index
being distinct from the target and, when blockno + 1 does not overflow
the uint, covering every other shard; on success the claimed buffer is
the reference-count-0 buffer nearest the LRU end of the first probed
shard that has one, it is relinked from that shard to the MRU end of
the target shard, and it takes the identity of the request; if no
probed shard has a reference-count-0 buffer, bget panics even when the
target shard itself holds one. -/
theorem bget_cross_shard_claim (s : BCache) (dev blockno : Nat) :
    (∀ j ∈ probeSeq (getIndex (blockno % U32)) (getIndex ((blockno % U32 + 1) % U32)),
        j < NBUCKETS ∧ j ≠ getIndex (blockno % U32)) ∧
    (blockno % U32 + 1 < U32 →
      ∀ j, j < NBUCKETS → j ≠ getIndex (blockno % U32) →
        j ∈ probeSeq (getIndex (blockno % U32)) (getIndex ((blockno % U32 + 1) % U32))) ∧
    (hitFind s (getIndex (blockno % U32)) (dev % U32) (blockno % U32) = none →
      match bget s dev blockno with
      | .ok s2 c =>
        ∃ pre j post,
          probeSeq (getIndex (blockno % U32)) (getIndex ((blockno % U32 + 1) % U32)) =
            pre ++ j :: post ∧
          j ≠ getIndex (blockno % U32) ∧
          (∀ j2 ∈ pre, ∀ x ∈ s.lists j2, (s.bufs x).refcnt ≠ 0) ∧
          c ∈ s.lists j ∧ (s.bufs c).refcnt = 0 ∧
          (∃ l₁ l₂, s.lists j = l₁ ++ c :: l₂ ∧ ∀ x ∈ l₂, (s.bufs x).refcnt ≠ 0) ∧
          s2.lists (getIndex (blockno % U32)) =
            c :: (s.lists (getIndex (blockno % U32))).erase c ∧
          s2.lists j = (s.lists j).erase c ∧
          (s2.bufs c).dev = dev % U32 ∧ (s2.bufs c).blockno = blockno % U32
      | .blocked => True
      | .panicked =>
        ∀ j ∈ probeSeq (getIndex (blockno % U32)) (getIndex ((blockno % U32 + 1) % U32)),
          ∀ x ∈ s.lists j, (s.bufs x).refcnt ≠ 0) := by
  refine ⟨fun j hj => ⟨mem_probeSeq_lt hj, mem_probeSeq_ne hj⟩, ?_, ?_⟩
  · intro hw j hlt hne
    rw [probeSeq_start (blockno % U32) hw]
    refine probeSeq_coverage (getIndex_lt _) ?_ hne
    simpa [NBUCKETS] using hlt
  · intro hmiss
    have hbg : bget s dev blockno = probeLoop s (getIndex (blockno % U32))
        (dev % U32) (blockno % U32)
        (probeSeq (getIndex (blockno % U32)) (getIndex ((blockno % U32 + 1) % U32))) := by
      simp [bget, hmiss]
    rw [hbg]
    cases hpl : probeLoop s (getIndex (blockno % U32)) (dev % U32) (blockno % U32)
        (probeSeq (getIndex (blockno % U32)) (getIndex ((blockno % U32 + 1) % U32))) with
    | blocked => trivial
    | panicked =>
      intro j hj x hx
      exact evictFind_none.mp (probeLoop_panicked.mp hpl j hj) x hx
    | ok s2 c =>
      obtain ⟨pre, j, post, hseq, hpre, hev, _, rfl⟩ := probeLoop_ok hpl
      have hjne : j ≠ getIndex (blockno % U32) :=
        mem_probeSeq_ne (hseq ▸ List.mem_append_right _ (List.mem_cons_self _ _))
      obtain ⟨hcmem, hcref, hdecomp⟩ := evictFind_some hev
      refine ⟨pre, j, post, hseq, hjne,
        fun j2 h2 => evictFind_none.mp (hpre j2 h2), hcmem, hcref, hdecomp,
        ?_, ?_, ?_, ?_⟩
      · rw [claim_lists, if_pos rfl]
      · rw [claim_lists, if_neg hjne]
      · rw [claim_bufs, if_pos rfl]
      · rw [claim_bufs, if_pos rfl]

/-- Claim C2 failing run: in the two-buffer initial state every buffer
in the pool has reference count 0, yet the request (1, 0), which misses
in its target shard 0, panics because the probe loop never looks at
shard 0 and every other shard is empty. -/
theorem bget_spurious_panic :
    (∀ x, x < 2 → ((binit 2).bufs x).refcnt = 0) ∧
    (0 ∈ (binit 2).lists (getIndex (0 % U32)) ∧ ((binit 2).bufs 0).refcnt = 0) ∧
    bget (binit 2) 1 0 = BGetResult.panicked :=
  ⟨by decide, ⟨by decide, by decide⟩, rfl⟩

/-- Claim C3 failing runs: starting from the two-buffer initial state,
the run bget(0, 53) acquires bucket lock 1 while holding bucket lock 0,
and the run bget(0, 1) acquires bucket lock 0 while holding bucket lock
1; both runs hold two bucket locks at once, so there is no fixed global
acquisition order over shard indices, and the target lock is not
released before a probed lock is taken. -/
theorem bget_lock_order_conflict :
    (0, 1) ∈ heldPairs (bgetLockTrace (binit 2) 0 53) ∧
    (1, 0) ∈ heldPairs (bgetLockTrace (binit 2) 0 1) ∧
    2 ≤ maxHeld (bgetLockTrace (binit 2) 0 53) ∧
    2 ≤ maxHeld (bgetLockTrace (binit 2) 0 1) := by
  refine ⟨by decide, by decide, by decide, by decide⟩

end BioCache
